import Mathlib

/-!
Shallow embedding of the signature-verification core of the Ton.Place
mini-app demo (src/main.go): the canonical check string built from the
query parameters, the SHA-256 / HMAC-SHA-256 / lowercase-hex pipeline,
the constant-time hash comparison, and the timestamp freshness check.

Go strings are UTF-8 byte sequences; Lean `String`s are modelled as byte
lists through `strBytes`.  A Go `map[string][]string` (url.Values) is
modelled as an association list with pairwise-distinct keys; the list
order stands for Go's arbitrary map iteration order.
-/

/-- UTF-8 encoding of a single Unicode code point as its byte values. -/
def utf8Bytes (n : Nat) : List Nat :=
  if n < 128 then [n]
  else if n < 2048 then [192 + n / 64, 128 + n % 64]
  else if n < 65536 then [224 + n / 4096, 128 + n / 64 % 64, 128 + n % 64]
  else [240 + n / 262144, 128 + n / 4096 % 64, 128 + n / 64 % 64, 128 + n % 64]

/-- The bytes of a string, as Go's `[]byte(s)` sees them (UTF-8). -/
def strBytes (s : String) : List Nat :=
  (s.data.map (fun c => utf8Bytes c.toNat)).flatten

/-- Byte-wise lexicographic strict order on byte lists (Go's `<` on strings). -/
def bytesLt : List Nat → List Nat → Bool
  | [], [] => false
  | [], _ :: _ => true
  | _ :: _, [] => false
  | a :: as, b :: bs => if a < b then true else if b < a then false else bytesLt as bs

/-- The non-strict comparator corresponding to `sort.Strings`' Less test. -/
def goStrLe (a b : String) : Bool := !(bytesLt (strBytes b) (strBytes a))

/-- Byte-wise strict `<` on strings. -/
def goStrLt (a b : String) : Bool := bytesLt (strBytes a) (strBytes b)

/-- A Go `map[string][]string` (url.Values): association list, distinct keys. -/
abbrev QueryParams := List (String × List String)

/-- Step 1 of VerifySignatureFromQuery: collect every parameter except
`"hash"` into the one-value-per-name map, taking the first value of each
name; a name whose value list is empty is dropped. -/
def collectParams (q : QueryParams) : List (String × String) :=
  q.filterMap (fun kv =>
    if kv.1 = "hash" then none
    else match kv.2 with
      | [] => none
      | v :: _ => some (kv.1, v))

/-- Go map lookup `paramsMap[key]` (zero value `""` when absent). -/
def lookupParam (pm : List (String × String)) (k : String) : String :=
  match pm.find? (fun p => p.1 = k) with
  | some p => p.2
  | none => ""

/-- Step 2: the collected parameter names, sorted ascending byte-wise
(`sort.Strings`). -/
def sortedKeys (pm : List (String × String)) : List String :=
  (pm.map Prod.fst).insertionSort (fun a b => goStrLe a b = true)

/-- The Go loop of Step 3: join entries with `"\n"`, no leading or
trailing separator. -/
def joinLines : List String → String
  | [] => ""
  | [x] => x
  | x :: y :: xs => x ++ "\n" ++ joinLines (y :: xs)

/-- Step 3: the canonical check string `"k1=v1\nk2=v2\n..."`. -/
def checkStr (q : QueryParams) : String :=
  joinLines ((sortedKeys (collectParams q)).map
    (fun k => k ++ "=" ++ lookupParam (collectParams q) k))

/-- 2^32, the modulus of Go's uint32 arithmetic inside SHA-256. -/
def M32 : Nat := 4294967296

/-- 32-bit addition. -/
def add32 (a b : Nat) : Nat := (a + b) % M32

/-- 32-bit right rotation. -/
def rotr32 (n x : Nat) : Nat := (x >>> n ||| x <<< (32 - n)) % M32

/-- SHA-256 Σ0. -/
def bsig0 (x : Nat) : Nat := rotr32 2 x ^^^ rotr32 13 x ^^^ rotr32 22 x

/-- SHA-256 Σ1. -/
def bsig1 (x : Nat) : Nat := rotr32 6 x ^^^ rotr32 11 x ^^^ rotr32 25 x

/-- SHA-256 σ0. -/
def ssig0 (x : Nat) : Nat := rotr32 7 x ^^^ rotr32 18 x ^^^ x >>> 3

/-- SHA-256 σ1. -/
def ssig1 (x : Nat) : Nat := rotr32 17 x ^^^ rotr32 19 x ^^^ x >>> 10

/-- SHA-256 Ch(x,y,z) = (x AND y) XOR (NOT x AND z), NOT in 32 bits. -/
def chFn (x y z : Nat) : Nat := (x &&& y) ^^^ ((x ^^^ 4294967295) &&& z)

/-- SHA-256 Maj(x,y,z). -/
def majFn (x y z : Nat) : Nat := (x &&& y) ^^^ (x &&& z) ^^^ (y &&& z)

/-- The 64 SHA-256 round constants. -/
def sha256K : List Nat :=
  [1116352408, 1899447441, 3049323471, 3921009573, 961987163,
   1508970993, 2453635748, 2870763221, 3624381080, 310598401,
   607225278, 1426881987, 1925078388, 2162078206, 2614888103,
   3248222580, 3835390401, 4022224774, 264347078, 604807628,
   770255983, 1249150122, 1555081692, 1996064986, 2554220882,
   2821834349, 2952996808, 3210313671, 3336571891, 3584528711,
   113926993, 338241895, 666307205, 773529912, 1294757372,
   1396182291, 1695183700, 1986661051, 2177026350, 2456956037,
   2730485921, 2820302411, 3259730800, 3345764771, 3516065817,
   3600352804, 4094571909, 275423344, 430227734, 506948616,
   659060556, 883997877, 958139571, 1322822218, 1537002063,
   1747873779, 1955562222, 2024104815, 2227730452, 2361852424,
   2428436474, 2756734187, 3204031479, 3329325298]

/-- The SHA-256 initial hash value. -/
def sha256H0 : List Nat :=
  [1779033703, 3144134277, 1013904242, 2773480762,
   1359893119, 2600822924, 528734635, 1541459225]

/-- Message-schedule extension: the working list is kept reversed, newest
word first, so `W[i-2]` is at index 1, `W[i-7]` at 6, `W[i-15]` at 14 and
`W[i-16]` at 15. -/
def extendW : Nat → List Nat → List Nat
  | 0, rw => rw
  | k + 1, rw =>
    extendW k (add32 (add32 (ssig1 (rw.getD 1 0)) (rw.getD 6 0))
      (add32 (ssig0 (rw.getD 14 0)) (rw.getD 15 0)) :: rw)

/-- The 64-entry message schedule from the 16 words of a block. -/
def msgSchedule (block : List Nat) : List Nat :=
  (extendW 48 block.reverse).reverse

/-- One SHA-256 compression round on the state `[a,b,c,d,e,f,g,h]`, given
the pair (round constant, schedule word). -/
def shaRound (st : List Nat) (kw : Nat × Nat) : List Nat :=
  match st with
  | [a, b, c, d, e, f, g, h] =>
    let t1 := add32 (add32 (add32 h (bsig1 e)) (add32 (chFn e f g) kw.1)) kw.2
    let t2 := add32 (bsig0 a) (majFn a b c)
    [add32 t1 t2, a, b, c, add32 d t1, e, f, g]
  | other => other

/-- Big-endian decoding of bytes into 32-bit words. -/
def bytesToWords : List Nat → List Nat
  | b0 :: b1 :: b2 :: b3 :: rest =>
    (b0 * 16777216 + b1 * 65536 + b2 * 256 + b3) :: bytesToWords rest
  | _ => []

/-- Compress one 64-byte block into the running state. -/
def sha256Compress (st : List Nat) (block : List Nat) : List Nat :=
  let w := msgSchedule (bytesToWords block)
  List.zipWith add32 st ((sha256K.zip w).foldl shaRound st)

/-- Split a byte list into 64-byte chunks; structural recursion on a fuel
bound that the wrapper instantiates with the list length. -/
def chunks64Aux : Nat → List Nat → List (List Nat)
  | _, [] => []
  | 0, _ :: _ => []
  | fuel + 1, b :: bs => ((b :: bs).take 64) :: chunks64Aux fuel ((b :: bs).drop 64)

/-- Split a byte list into 64-byte chunks. -/
def chunks64 (l : List Nat) : List (List Nat) := chunks64Aux l.length l

/-- Big-endian bytes of a 32-bit word. -/
def word32ToBytes (w : Nat) : List Nat :=
  [w / 16777216 % 256, w / 65536 % 256, w / 256 % 256, w % 256]

/-- Big-endian bytes of a 64-bit word. -/
def word64ToBytes (w : Nat) : List Nat :=
  [w / 2 ^ 56 % 256, w / 2 ^ 48 % 256, w / 2 ^ 40 % 256, w / 2 ^ 32 % 256,
   w / 2 ^ 24 % 256, w / 2 ^ 16 % 256, w / 2 ^ 8 % 256, w % 256]

/-- SHA-256 padding for a message of `l` bytes: `0x80`, zeros up to
56 mod 64, then the bit length as 8 big-endian bytes (mod 2^64, as Go's
uint64 length counter). -/
def shaPad (l : Nat) : List Nat :=
  128 :: (List.replicate ((119 - l % 64) % 64) 0 ++ word64ToBytes (8 * l % 2 ^ 64))

/-- SHA-256 of a byte list (crypto/sha256). -/
def sha256 (msg : List Nat) : List Nat :=
  (((chunks64 (msg ++ shaPad msg.length)).foldl sha256Compress sha256H0).map
    word32ToBytes).flatten

/-- crypto/hmac instantiated with SHA-256: a key longer than the 64-byte
block is first hashed; the key is zero-padded to 64 bytes; inner pad 0x36,
outer pad 0x5c. -/
def hmacSha256 (key msg : List Nat) : List Nat :=
  let k1 := if 64 < key.length then sha256 key else key
  let k0 := k1 ++ List.replicate (64 - k1.length) 0
  sha256 ((k0.map (fun b => b ^^^ 92)) ++ sha256 ((k0.map (fun b => b ^^^ 54)) ++ msg))

/-- The lowercase hex digit for a nibble. -/
def hexDigitChar (n : Nat) : Char :=
  Char.ofNat (if n < 10 then 48 + n else 87 + n)

/-- encoding/hex.EncodeToString: lowercase hexadecimal. -/
def hexEncode (bs : List Nat) : String :=
  ⟨(bs.map (fun b => [hexDigitChar (b / 16), hexDigitChar (b % 16)])).flatten⟩

/-- Steps 4–5 of VerifySignatureFromQuery: the expected signature,
`hex(HMAC-SHA-256(key = SHA-256(secret), message = checkStr))`. -/
def expectedHex (q : QueryParams) (secret : String) : String :=
  hexEncode (hmacSha256 (sha256 (strBytes secret)) (strBytes (checkStr q)))

/-- Step 6: the supplied `"hash"` parameter's first value, or `""` when the
parameter is absent or carries no values. -/
def providedHash (q : QueryParams) : String :=
  match q.find? (fun p => p.1 = "hash") with
  | some (_, v :: _) => v
  | _ => ""

/-- crypto/subtle.ConstantTimeCompare, which hmac.Equal calls: reject on
length mismatch, otherwise OR together the XOR of every byte pair and
test the accumulator against zero. -/
def constantTimeCompare (x y : List Nat) : Bool :=
  if x.length = y.length then
    ((x.zip y).foldl (fun acc p => acc ||| (p.1 ^^^ p.2)) 0) == 0
  else false

/-- An instrumented ConstantTimeCompare that also counts how many byte
pairs the accumulator loop visits (its data-dependent work). -/
def ctcTrace (x y : List Nat) : Bool × Nat :=
  if x.length = y.length then
    let r := (x.zip y).foldl (fun acc p => (acc.1 ||| (p.1 ^^^ p.2), acc.2 + 1)) (0, 0)
    (r.1 == 0, r.2)
  else (false, 0)

/-- VerifySignatureFromQuery from src/main.go. -/
def VerifySignatureFromQuery (q : QueryParams) (secret : String) : Bool :=
  constantTimeCompare (strBytes (expectedHex q secret)) (strBytes (providedHash q))

/-- SIGNATURE_MAX_AGE from src/main.go. -/
def SIGNATURE_MAX_AGE : Int := 300

/-- Reduce an integer into Go's int64 two's-complement range. -/
def wrap64 (n : Int) : Int :=
  (n + 9223372036854775808) % 18446744073709551616 - 9223372036854775808

/-- The value of a decimal digit character, if it is one. -/
def digitVal (c : Char) : Option Nat :=
  if 48 ≤ c.toNat ∧ c.toNat ≤ 57 then some (c.toNat - 48) else none

/-- The base-10 digit loop of strconv.ParseUint. -/
def parseDigitsAux : List Char → Nat → Option Nat
  | [], acc => some acc
  | c :: cs, acc =>
    match digitVal c with
    | none => none
    | some d => parseDigitsAux cs (acc * 10 + d)

/-- strconv.ParseUint in base 10: at least one character, all digits. -/
def parseDigits : List Char → Option Nat
  | [] => none
  | c :: cs => parseDigitsAux (c :: cs) 0

/-- strconv.ParseInt(s, 10, 64): optional single sign, base-10 digits,
value within the signed 64-bit range. -/
def parseInt64 (s : String) : Option Int :=
  match s.data with
  | [] => none
  | c :: rest =>
    let sd : Bool × List Char :=
      if c = '+' then (false, rest)
      else if c = '-' then (true, rest)
      else (false, c :: rest)
    match parseDigits sd.2 with
    | none => none
    | some n =>
      if sd.1 then
        if n ≤ 9223372036854775808 then some (-(n : Int)) else none
      else
        if n < 9223372036854775808 then some (n : Int) else none

/-- ValidateTimestamp from src/main.go, with `time.Now().Unix()` passed
explicitly as `now`; the age subtraction is Go int64 arithmetic. -/
def ValidateTimestamp (tsStr : String) (now : Int) : Bool :=
  match parseInt64 tsStr with
  | none => false
  | some ts =>
    let age := wrap64 (now - ts)
    if age < -60 then false
    else if age > SIGNATURE_MAX_AGE then false
    else true

/-! ### Order facts for the byte-wise comparison -/

theorem bytesLt_irrefl (l : List Nat) : bytesLt l l = false := by
  induction l with
  | nil => rfl
  | cons a as ih => simp [bytesLt, ih]

theorem bytesLt_asymm : ∀ {a b : List Nat}, bytesLt a b = true → bytesLt b a = false
  | [], [], h => by simp [bytesLt] at h
  | [], _ :: _, _ => by simp [bytesLt]
  | _ :: _, [], h => by simp [bytesLt] at h
  | a :: as, b :: bs, h => by
    simp only [bytesLt] at h ⊢
    split_ifs at h ⊢ with h1 h2 h3 h4 <;> try omega
    all_goals first
    | rfl
    | simp at h
    | exact bytesLt_asymm h

theorem bytesLt_conn : ∀ {a b : List Nat},
    bytesLt a b = false → bytesLt b a = false → a = b
  | [], [], _, _ => rfl
  | [], _ :: _, h, _ => by simp [bytesLt] at h
  | _ :: _, [], _, h => by simp [bytesLt] at h
  | a :: as, b :: bs, h, h' => by
    simp only [bytesLt] at h h'
    split_ifs at h h' with h1 h2 h3 h4 <;> try omega
    have : a = b := by omega
    rw [this, bytesLt_conn h h']

theorem bytesLt_trans : ∀ {a b c : List Nat},
    bytesLt a b = true → bytesLt b c = true → bytesLt a c = true
  | [], _, [], _, h => by cases ‹List Nat› <;> simp [bytesLt] at h
  | [], b, _ :: _, _, _ => by simp [bytesLt]
  | _ :: _, [], _, h, _ => by simp [bytesLt] at h
  | _ :: _, _ :: _, [], _, h => by simp [bytesLt] at h
  | a :: as, b :: bs, c :: cs, h, h' => by
    simp only [bytesLt] at h h' ⊢
    split_ifs at h h' ⊢ with h1 h2 h3 h4 h5 h6 <;> try omega
    all_goals try simp_all
    exact bytesLt_trans h h'

/-! ### Injectivity of the UTF-8 byte encoding -/

theorem utf8Bytes_ne_nil (n : Nat) : utf8Bytes n ≠ [] := by
  unfold utf8Bytes
  split_ifs <;> simp

theorem utf8Bytes_append_inj {n m : Nat} {xs ys : List Nat}
    (hn : n < 1114112) (hm : m < 1114112)
    (h : utf8Bytes n ++ xs = utf8Bytes m ++ ys) : n = m ∧ xs = ys := by
  unfold utf8Bytes at h
  split_ifs at h <;>
    simp only [List.cons_append, List.nil_append, List.cons.injEq] at h <;>
    [skip; omega; omega; omega; omega; skip; omega; omega;
     omega; omega; skip; omega; omega; omega; omega; skip] <;>
    refine ⟨by omega, ?_⟩ <;> tauto

theorem char_toNat_lt (c : Char) : c.toNat < 1114112 := by
  rcases c.valid with h | ⟨_, h2⟩
  · exact Nat.lt_trans h (by norm_num)
  · exact h2

theorem utf8Chars_inj : ∀ {l1 l2 : List Char},
    (l1.map (fun c => utf8Bytes c.toNat)).flatten
      = (l2.map (fun c => utf8Bytes c.toNat)).flatten → l1 = l2
  | [], [], _ => rfl
  | [], c :: cs, h => by
    simp only [List.map_nil, List.flatten_nil, List.map_cons, List.flatten_cons] at h
    exact absurd h.symm (List.append_ne_nil_of_left_ne_nil (utf8Bytes_ne_nil c.toNat) _)
  | c :: cs, [], h => by
    simp only [List.map_nil, List.flatten_nil, List.map_cons, List.flatten_cons] at h
    exact absurd h (List.append_ne_nil_of_left_ne_nil (utf8Bytes_ne_nil c.toNat) _)
  | c :: cs, d :: ds, h => by
    simp only [List.map_cons, List.flatten_cons] at h
    obtain ⟨h1, h2⟩ := utf8Bytes_append_inj (char_toNat_lt c) (char_toNat_lt d) h
    have hc : c = d := by
      apply Char.eq_of_val_eq
      apply UInt32.eq_of_val_eq
      exact Fin.ext h1
    rw [hc, utf8Chars_inj h2]

theorem strBytes_inj {s t : String} (h : strBytes s = strBytes t) : s = t := by
  have hd : s.data = t.data := utf8Chars_inj h
  cases s; cases t; simp_all

/-! ### The comparator of sort.Strings is a total, transitive,
antisymmetric order on strings -/

theorem goStrLe_of_not_lt {a b : String}
    (h : bytesLt (strBytes b) (strBytes a) = false) : goStrLe a b = true := by
  simp [goStrLe, h]

theorem not_lt_of_goStrLe {a b : String}
    (h : goStrLe a b = true) : bytesLt (strBytes b) (strBytes a) = false := by
  simpa [goStrLe] using h

instance : IsTrans String (fun a b => goStrLe a b = true) := by
  constructor
  intro a b c hab hbc
  apply goStrLe_of_not_lt
  have h1 := not_lt_of_goStrLe hab
  have h2 := not_lt_of_goStrLe hbc
  cases h3 : bytesLt (strBytes c) (strBytes a) with
  | false => rfl
  | true =>
    cases h4 : bytesLt (strBytes a) (strBytes b) with
    | true => rw [bytesLt_trans h3 h4] at h2; cases h2
    | false => rw [bytesLt_conn h4 h1] at h3; rw [h3] at h2; cases h2

instance : IsTotal String (fun a b => goStrLe a b = true) := by
  constructor
  intro a b
  cases h : bytesLt (strBytes b) (strBytes a) with
  | false => exact Or.inl (goStrLe_of_not_lt h)
  | true => exact Or.inr (goStrLe_of_not_lt (bytesLt_asymm h))

instance : IsAntisymm String (fun a b => goStrLe a b = true) := by
  constructor
  intro a b hab hba
  exact strBytes_inj (bytesLt_conn (not_lt_of_goStrLe hba) (not_lt_of_goStrLe hab))

theorem goStrLt_of_le_ne {a b : String} (hle : goStrLe a b = true) (hne : a ≠ b) :
    goStrLt a b = true := by
  unfold goStrLt
  cases h : bytesLt (strBytes a) (strBytes b) with
  | true => rfl
  | false =>
    exact absurd (strBytes_inj (bytesLt_conn h (not_lt_of_goStrLe hle))) hne

/-! ### Structure of the collected parameter map and its sorted keys -/

theorem mem_collectParams {q : QueryParams} {k v : String} :
    (k, v) ∈ collectParams q ↔ k ≠ "hash" ∧ ∃ rest, (k, v :: rest) ∈ q := by
  unfold collectParams
  rw [List.mem_filterMap]
  constructor
  · rintro ⟨⟨k', vs⟩, hmem, hf⟩
    simp only at hf
    split_ifs at hf with hk
    rcases vs with _ | ⟨v', rest⟩
    · cases hf
    · simp only [Option.some.injEq, Prod.mk.injEq] at hf
      obtain ⟨rfl, rfl⟩ := hf
      exact ⟨hk, rest, hmem⟩
  · rintro ⟨hk, rest, hmem⟩
    exact ⟨(k, v :: rest), hmem, by simp [hk]⟩

theorem collectParams_keys_sublist (q : QueryParams) :
    ((collectParams q).map Prod.fst).Sublist (q.map Prod.fst) := by
  induction q with
  | nil => simp [collectParams]
  | cons kv q ih =>
    rcases kv with ⟨k', vs⟩
    unfold collectParams at ih ⊢
    rw [List.filterMap_cons]
    by_cases hk : k' = "hash"
    · simp only [hk, if_pos]
      exact List.Sublist.cons _ ih
    · rcases vs with _ | ⟨v, rest⟩
      · simp only [if_neg hk]
        exact List.Sublist.cons _ ih
      · simp only [if_neg hk, List.map_cons]
        exact List.Sublist.cons₂ _ ih

theorem collectParams_keys_nodup {q : QueryParams}
    (h : (q.map Prod.fst).Nodup) : ((collectParams q).map Prod.fst).Nodup :=
  (collectParams_keys_sublist q).nodup h

theorem sortedKeys_perm (pm : List (String × String)) :
    (sortedKeys pm).Perm (pm.map Prod.fst) :=
  List.perm_insertionSort _ _

theorem sortedKeys_sorted (pm : List (String × String)) :
    List.Sorted (fun a b => goStrLe a b = true) (sortedKeys pm) :=
  List.sorted_insertionSort _ _

theorem sortedKeys_eq_of_perm {pm1 pm2 : List (String × String)}
    (h : (pm1.map Prod.fst).Perm (pm2.map Prod.fst)) :
    sortedKeys pm1 = sortedKeys pm2 :=
  List.eq_of_perm_of_sorted
    (((sortedKeys_perm pm1).trans h).trans (sortedKeys_perm pm2).symm)
    (sortedKeys_sorted pm1) (sortedKeys_sorted pm2)

theorem sortedKeys_strict {pm : List (String × String)}
    (h : (pm.map Prod.fst).Nodup) :
    (sortedKeys pm).Pairwise (fun a b => goStrLt a b = true) := by
  have hnd : (sortedKeys pm).Nodup := (sortedKeys_perm pm).symm.nodup h
  exact ((sortedKeys_sorted pm).and hnd).imp
    (fun hab => goStrLt_of_le_ne hab.1 hab.2)

/-! ### Go map lookup -/

theorem lookupParam_eq {pm : List (String × String)}
    (hnd : (pm.map Prod.fst).Nodup) {k v : String} (hmem : (k, v) ∈ pm) :
    lookupParam pm k = v := by
  induction pm with
  | nil => cases hmem
  | cons p pm ih =>
    simp only [List.map_cons, List.nodup_cons] at hnd
    rcases List.mem_cons.mp hmem with heq | htail
    · unfold lookupParam
      rw [List.find?_cons_of_pos _ (by simp [← heq])]
      rw [← heq]
    · have hk : p.1 ≠ k := by
        intro he
        exact hnd.1 (List.mem_map.mpr ⟨(k, v), htail, he.symm⟩)
      unfold lookupParam at ih ⊢
      rw [List.find?_cons_of_neg _ (by simp [hk])]
      exact ih hnd.2 htail

theorem lookupParam_of_not_mem {pm : List (String × String)} {k : String}
    (h : k ∉ pm.map Prod.fst) : lookupParam pm k = "" := by
  unfold lookupParam
  have hnone : pm.find? (fun p => p.1 = k) = none := by
    rw [List.find?_eq_none]
    intro p hp hpk
    exact h (List.mem_map.mpr ⟨p, hp, by simpa using hpk⟩)
  rw [hnone]

/-! ### The newline join is injective at a fixed position -/

theorem joinLines_cons {t : List String} (x : String) (ht : t ≠ []) :
    joinLines (x :: t) = x ++ "\n" ++ joinLines t := by
  rcases t with _ | ⟨y, ys⟩
  · cases ht rfl
  · rfl

theorem str_append_cancel_right {a b c : String} (h : a ++ c = b ++ c) : a = b := by
  have hd : a.data ++ c.data = b.data ++ c.data := by
    rw [← String.data_append, ← String.data_append, h]
  have := List.append_cancel_right hd
  cases a; cases b; simp_all

theorem str_append_cancel_left {a b c : String} (h : c ++ a = c ++ b) : a = b := by
  have hd : c.data ++ a.data = c.data ++ b.data := by
    rw [← String.data_append, ← String.data_append, h]
  have := List.append_cancel_left hd
  cases a; cases b; simp_all

theorem joinLines_inj_at : ∀ {p s : List String} {x y : String},
    joinLines (p ++ x :: s) = joinLines (p ++ y :: s) → x = y := by
  intro p
  induction p with
  | nil =>
    intro s x y h
    rcases s with _ | ⟨z, zs⟩
    · exact h
    · simp only [List.nil_append] at h
      rw [joinLines_cons x (by simp), joinLines_cons y (by simp)] at h
      exact str_append_cancel_right (str_append_cancel_right h)
  | cons a p ih =>
    intro s x y h
    simp only [List.cons_append] at h
    rw [joinLines_cons a (by simp), joinLines_cons a (by simp)] at h
    exact ih (str_append_cancel_left h)

/-! ### ConstantTimeCompare: functional result and data-independent cost -/

theorem orFold_eq_zero : ∀ (l : List (Nat × Nat)) (a : Nat),
    (l.foldl (fun acc p => acc ||| (p.1 ^^^ p.2)) a = 0 ↔
      a = 0 ∧ ∀ p ∈ l, p.1 = p.2) := by
  intro l
  induction l with
  | nil => simp
  | cons q l ih =>
    intro a
    simp only [List.foldl_cons, List.mem_cons]
    rw [ih]
    constructor
    · rintro ⟨h1, h2⟩
      have ha : a = 0 ∧ q.1 ^^^ q.2 = 0 := by
        constructor
        · apply Nat.eq_of_testBit_eq
          intro i
          have := congrArg (fun n => Nat.testBit n i) h1
          simp only [Nat.testBit_or, Nat.zero_testBit, Bool.or_eq_false_iff] at this
          simp [this.1]
        · apply Nat.eq_of_testBit_eq
          intro i
          have := congrArg (fun n => Nat.testBit n i) h1
          simp only [Nat.testBit_or, Nat.zero_testBit, Bool.or_eq_false_iff] at this
          simp [this.2]
      refine ⟨ha.1, fun p hp => ?_⟩
      rcases hp with rfl | hp
      · exact Nat.xor_eq_zero.mp ha.2
      · exact h2 p hp
    · rintro ⟨rfl, h2⟩
      have hq : q.1 ^^^ q.2 = 0 := by
        rw [h2 q (Or.inl rfl)]; exact Nat.xor_self q.2
      exact ⟨by simp [hq], fun p hp => h2 p (Or.inr hp)⟩

theorem zip_all_eq : ∀ {x y : List Nat}, x.length = y.length →
    (∀ p ∈ x.zip y, p.1 = p.2) → x = y
  | [], [], _, _ => rfl
  | a :: as, b :: bs, hl, hp => by
    simp only [List.length_cons, Nat.add_right_cancel_iff] at hl
    have hab : a = b := hp (a, b) (by simp [List.zip_cons_cons])
    have : as = bs := zip_all_eq hl (fun p hmem => hp p (by simp [List.zip_cons_cons, hmem]))
    rw [hab, this]

theorem constantTimeCompare_eq_iff (x y : List Nat) :
    constantTimeCompare x y = true ↔ x = y := by
  unfold constantTimeCompare
  constructor
  · intro h
    split_ifs at h with hl
    rw [beq_iff_eq] at h
    obtain ⟨-, hall⟩ := (orFold_eq_zero _ 0).mp h
    exact zip_all_eq hl hall
  · rintro rfl
    rw [if_pos rfl, beq_iff_eq]
    exact (orFold_eq_zero _ 0).mpr ⟨rfl, fun p hp => by
      induction x with
      | nil => cases hp
      | cons a as ih =>
        rcases (by simpa [List.zip_cons_cons] using hp : p = (a, a) ∨ p ∈ as.zip as) with rfl | h
        · rfl
        · exact ih h⟩

theorem ctcTrace_fold : ∀ (l : List (Nat × Nat)) (a c : Nat),
    l.foldl (fun acc p => (acc.1 ||| (p.1 ^^^ p.2), acc.2 + 1)) (a, c)
      = (l.foldl (fun acc p => acc ||| (p.1 ^^^ p.2)) a, c + l.length) := by
  intro l
  induction l with
  | nil => simp
  | cons q l ih =>
    intro a c
    simp only [List.foldl_cons, ih, List.length_cons, Prod.mk.injEq]
    exact ⟨trivial, by omega⟩

/-! ### Shape of the SHA-256 output -/

theorem shaRound_length (st : List Nat) (kw : Nat × Nat) :
    (shaRound st kw).length = st.length := by
  unfold shaRound
  split
  · simp
  · rfl

theorem foldRounds_length (l : List (Nat × Nat)) (st : List Nat) :
    (l.foldl shaRound st).length = st.length := by
  induction l generalizing st with
  | nil => rfl
  | cons q l ih => simp only [List.foldl_cons]; rw [ih, shaRound_length]

theorem sha256Compress_length (st block : List Nat) :
    (sha256Compress st block).length = st.length := by
  unfold sha256Compress
  rw [List.length_zipWith, foldRounds_length, min_self]

theorem foldCompress_length (blocks : List (List Nat)) (st : List Nat) :
    (blocks.foldl sha256Compress st).length = st.length := by
  induction blocks generalizing st with
  | nil => rfl
  | cons b blocks ih => simp only [List.foldl_cons]; rw [ih, sha256Compress_length]

theorem flatten_map_word32_length (st : List Nat) :
    ((st.map word32ToBytes).flatten).length = 4 * st.length := by
  induction st with
  | nil => rfl
  | cons w st ih =>
    simp only [List.map_cons, List.flatten_cons, List.length_append, ih,
      word32ToBytes, List.length_cons, List.length_nil]
    omega

theorem sha256_length (msg : List Nat) : (sha256 msg).length = 32 := by
  unfold sha256
  rw [flatten_map_word32_length, foldCompress_length]
  rfl

theorem hexEncode_data_length (bs : List Nat) :
    (hexEncode bs).data.length = 2 * bs.length := by
  unfold hexEncode
  induction bs with
  | nil => rfl
  | cons b bs ih =>
    simp only [List.map_cons, List.flatten_cons, List.length_append,
      List.length_cons, List.length_nil] at ih ⊢
    omega

theorem hmacSha256_length (key msg : List Nat) :
    (hmacSha256 key msg).length = 32 := by
  unfold hmacSha256
  exact sha256_length _

theorem expectedHex_ne_empty (q : QueryParams) (s : String) :
    expectedHex q s ≠ "" := by
  intro h
  have hlen := congrArg (fun t => t.data.length) h
  simp only [expectedHex, hexEncode_data_length, hmacSha256_length] at hlen
  simp at hlen

/-! ### The supplied hash and appending the expected one -/

theorem providedHash_append {q : QueryParams} (h : "hash" ∉ q.map Prod.fst)
    (e : String) : providedHash (q ++ [("hash", [e])]) = e := by
  unfold providedHash
  rw [List.find?_append]
  have hnone : q.find? (fun p => p.1 = "hash") = none := by
    rw [List.find?_eq_none]
    intro p hp hpk
    exact h (List.mem_map.mpr ⟨p, hp, by simpa using hpk⟩)
  rw [hnone]
  rfl

theorem collectParams_append (q1 q2 : QueryParams) :
    collectParams (q1 ++ q2) = collectParams q1 ++ collectParams q2 :=
  List.filterMap_append q1 q2 _

theorem collectParams_hash_nil (vs : List String) :
    collectParams [("hash", vs)] = [] := by
  simp [collectParams]

theorem checkStr_append_hash (q : QueryParams) (vs : List String) :
    checkStr (q ++ [("hash", vs)]) = checkStr q := by
  unfold checkStr
  rw [collectParams_append, collectParams_hash_nil, List.append_nil]

/-! ### Range of strconv.ParseInt results -/

theorem parseInt64_range {s : String} {t : Int} (h : parseInt64 s = some t) :
    -9223372036854775808 ≤ t ∧ t < 9223372036854775808 := by
  unfold parseInt64 at h
  rcases hds : s.data with _ | ⟨c, rest⟩ <;> rw [hds] at h
  · cases h
  · simp only at h
    generalize hsd : (if c = '+' then ((false : Bool), rest)
        else if c = '-' then ((true : Bool), rest)
        else ((false : Bool), c :: rest)) = sd at h
    obtain ⟨b, digits⟩ := sd
    rcases hd : parseDigits digits with _ | n <;> rw [hd] at h
    · cases h
    · simp only at h
      split_ifs at h with h1 h2 h3 <;>
        first
        | exact Option.noConfusion h
        | (simp only [Option.some.injEq] at h; omega)

/-! ## Claim theorems -/

/-- C1: the canonical check string consists of the `name=value` entries
(values verbatim, unescaped) for every retained name, with names in
strict ascending byte-wise lexicographic order, joined by a single
newline with no leading or trailing separator; an empty retained
parameter set yields the empty string. -/
theorem checkStr_canonical (q : QueryParams) (h : (q.map Prod.fst).Nodup) :
    checkStr q = joinLines ((sortedKeys (collectParams q)).map
        (fun k => k ++ "=" ++ lookupParam (collectParams q) k))
    ∧ (sortedKeys (collectParams q)).Pairwise (fun a b => goStrLt a b = true)
    ∧ (sortedKeys (collectParams q)).Perm ((collectParams q).map Prod.fst)
    ∧ (∀ k ∈ sortedKeys (collectParams q),
        (k, lookupParam (collectParams q) k) ∈ collectParams q)
    ∧ (collectParams q = [] → checkStr q = "") := by
  have hnd := collectParams_keys_nodup h
  refine ⟨rfl, sortedKeys_strict hnd, sortedKeys_perm _, ?_, ?_⟩
  · intro k hk
    have hkmem : k ∈ (collectParams q).map Prod.fst :=
      ((sortedKeys_perm _).mem_iff).mp hk
    obtain ⟨⟨k', v⟩, hmem, hfst⟩ := List.mem_map.mp hkmem
    simp only at hfst
    subst hfst
    rw [lookupParam_eq hnd hmem]
    exact hmem
  · intro hnil
    unfold checkStr
    rw [hnil]
    rfl

/-- Witness for C1 at a concrete query (given in non-sorted order). -/
theorem checkStr_canonical_witness :
    (([("b", ["2"]), ("a", ["1"])] : QueryParams).map Prod.fst).Nodup
    ∧ (checkStr [("b", ["2"]), ("a", ["1"])]
        = joinLines ((sortedKeys (collectParams [("b", ["2"]), ("a", ["1"])])).map
            (fun k => k ++ "=" ++ lookupParam (collectParams [("b", ["2"]), ("a", ["1"])]) k))
      ∧ (sortedKeys (collectParams [("b", ["2"]), ("a", ["1"])])).Pairwise
          (fun a b => goStrLt a b = true)
      ∧ (sortedKeys (collectParams [("b", ["2"]), ("a", ["1"])])).Perm
          ((collectParams [("b", ["2"]), ("a", ["1"])]).map Prod.fst)
      ∧ (∀ k ∈ sortedKeys (collectParams [("b", ["2"]), ("a", ["1"])]),
          (k, lookupParam (collectParams [("b", ["2"]), ("a", ["1"])]) k)
            ∈ collectParams [("b", ["2"]), ("a", ["1"])])
      ∧ (collectParams [("b", ["2"]), ("a", ["1"])] = []
          → checkStr [("b", ["2"]), ("a", ["1"])] = "")) :=
  ⟨by decide, checkStr_canonical [("b", ["2"]), ("a", ["1"])] (by decide)⟩

/-- C6: the parameter named "hash" never contributes an entry to the
canonical check string: it is not among the collected names, not among
the sorted names, and a "hash" parameter anywhere in the query (with any
number of values) leaves the collected parameter map unchanged. -/
theorem hash_never_signed (q q1 q2 : QueryParams) (vs : List String) :
    "hash" ∉ (collectParams q).map Prod.fst
    ∧ "hash" ∉ sortedKeys (collectParams q)
    ∧ collectParams (q1 ++ ("hash", vs) :: q2) = collectParams (q1 ++ q2)
    ∧ checkStr (q1 ++ ("hash", vs) :: q2) = checkStr (q1 ++ q2) := by
  have hnotin : ∀ q' : QueryParams, "hash" ∉ (collectParams q').map Prod.fst := by
    intro q' hmem
    obtain ⟨⟨k, v⟩, hm, hfst⟩ := List.mem_map.mp hmem
    simp only at hfst
    subst hfst
    exact (mem_collectParams.mp hm).1 rfl
  have hmid : ∀ q1 q2 : QueryParams,
      collectParams (q1 ++ ("hash", vs) :: q2) = collectParams (q1 ++ q2) := by
    intro q1 q2
    show List.filterMap _ _ = List.filterMap _ _
    rw [List.filterMap_append, List.filterMap_append, List.filterMap_cons]
    simp
  refine ⟨hnotin q, ?_, hmid q1 q2, ?_⟩
  · intro hmem
    exact hnotin q (((sortedKeys_perm _).mem_iff).mp hmem)
  · unfold checkStr
    rw [hmid q1 q2]

/-- With pairwise-distinct keys, a key determines its value in an
association list. -/
theorem nodup_keys_value_eq {β : Type} {l : List (String × β)}
    (h : (l.map Prod.fst).Nodup) {k : String} {a b : β}
    (ha : (k, a) ∈ l) (hb : (k, b) ∈ l) : a = b := by
  induction l with
  | nil => cases ha
  | cons p l ih =>
    simp only [List.map_cons, List.nodup_cons] at h
    rcases List.mem_cons.mp ha with ha1 | ha2 <;>
      rcases List.mem_cons.mp hb with hb1 | hb2
    · rw [← ha1] at hb1
      exact (Prod.mk.injEq _ _ _ _ ▸ hb1.symm).2
    · exact absurd (List.mem_map.mpr ⟨(k, b), hb2, (by rw [← ha1])⟩) h.1
    · exact absurd (List.mem_map.mpr ⟨(k, a), ha2, (by rw [← hb1])⟩) h.1
    · exact ih h.2 ha2 hb2

/-- C9: when the one-value-per-name map is built, a non-"hash" name with
at least one value contributes exactly its first value (which is what the
canonical string looks up), and a name with an empty value list is
omitted from the collected map and from the sorted names entirely. -/
theorem firstValue_per_name (q : QueryParams) (h : (q.map Prod.fst).Nodup)
    (k : String) (vs : List String) (hk : k ≠ "hash") (hmem : (k, vs) ∈ q) :
    (vs = [] → k ∉ (collectParams q).map Prod.fst
      ∧ k ∉ sortedKeys (collectParams q))
    ∧ (∀ v rest, vs = v :: rest →
        (k, v) ∈ collectParams q ∧ lookupParam (collectParams q) k = v) := by
  constructor
  · rintro rfl
    have hnot : k ∉ (collectParams q).map Prod.fst := by
      intro hin
      obtain ⟨⟨k', v⟩, hm, hfst⟩ := List.mem_map.mp hin
      simp only at hfst
      subst hfst
      obtain ⟨-, rest, hmemv⟩ := mem_collectParams.mp hm
      exact List.noConfusion (nodup_keys_value_eq h hmem hmemv)
    exact ⟨hnot, fun hin => hnot (((sortedKeys_perm _).mem_iff).mp hin)⟩
  · intro v rest hvs
    subst hvs
    have hcp : (k, v) ∈ collectParams q := mem_collectParams.mpr ⟨hk, rest, hmem⟩
    exact ⟨hcp, lookupParam_eq (collectParams_keys_nodup h) hcp⟩

/-- Witness for C9: name "a" carries ["1", "2"]; its first value "1" is
the one retained. -/
theorem firstValue_per_name_witness :
    ((([("a", ["1", "2"]), ("b", [])] : QueryParams).map Prod.fst).Nodup
      ∧ ("a" : String) ≠ "hash"
      ∧ (("a", ["1", "2"]) : String × List String) ∈
          ([("a", ["1", "2"]), ("b", [])] : QueryParams)
      ∧ (["1", "2"] : List String) = "1" :: ["2"])
    ∧ ("a", "1") ∈ collectParams [("a", ["1", "2"]), ("b", [])]
    ∧ lookupParam (collectParams [("a", ["1", "2"]), ("b", [])]) "a" = "1" :=
  ⟨⟨by decide, by decide, by decide, rfl⟩,
    (firstValue_per_name [("a", ["1", "2"]), ("b", [])] (by decide) "a" ["1", "2"]
      (by decide) (by decide)).2 "1" ["2"] rfl⟩

/-- C3: VerifySignatureFromQuery returns true exactly when the supplied
hash equals the computed lowercase-hex HMAC as a full string; when the
hash parameter is absent, or the supplied value is empty, it returns
false; the function is a total Bool-valued function, so there is no
partial success and no exception. -/
theorem verify_exact_equality (q : QueryParams) (secret : String) :
    (VerifySignatureFromQuery q secret = true ↔ providedHash q = expectedHex q secret)
    ∧ (q.find? (fun p => p.1 = "hash") = none →
        VerifySignatureFromQuery q secret = false)
    ∧ (providedHash q = "" → VerifySignatureFromQuery q secret = false) := by
  have hiff : VerifySignatureFromQuery q secret = true ↔
      providedHash q = expectedHex q secret := by
    unfold VerifySignatureFromQuery
    rw [constantTimeCompare_eq_iff]
    constructor
    · intro hb
      exact (strBytes_inj hb).symm
    · intro hb
      rw [hb]
  have hFalse : providedHash q = "" → VerifySignatureFromQuery q secret = false := by
    intro hp
    cases hv : VerifySignatureFromQuery q secret with
    | false => rfl
    | true => exact absurd ((hiff.mp hv).symm.trans hp) (expectedHex_ne_empty q secret)
  refine ⟨hiff, ?_, hFalse⟩
  intro hnone
  apply hFalse
  unfold providedHash
  rw [hnone]

/-- Witness for C3 at a query with no hash parameter. -/
theorem verify_exact_equality_witness :
    ((([("a", ["1"])] : QueryParams).find? (fun p => p.1 = "hash") = none)
      ∧ VerifySignatureFromQuery [("a", ["1"])] "sec" = false)
    ∧ (providedHash [("a", ["1"]), ("hash", [""])] = ""
      ∧ VerifySignatureFromQuery [("a", ["1"]), ("hash", [""])] "sec" = false) :=
  ⟨⟨by decide, (verify_exact_equality [("a", ["1"])] "sec").2.1 (by decide)⟩,
   ⟨by decide, (verify_exact_equality [("a", ["1"]), ("hash", [""])] "sec").2.2 (by decide)⟩⟩

/-- C2: round-trip — extending a hash-free parameter map with the
correctly computed signature
`hex(HMAC-SHA-256(key = SHA-256(secret), canonical))` makes
verification succeed. -/
theorem verify_roundTrip (q : QueryParams) (secret : String)
    (h : "hash" ∉ q.map Prod.fst) :
    VerifySignatureFromQuery (q ++ [("hash", [expectedHex q secret])]) secret
      = true := by
  unfold VerifySignatureFromQuery
  rw [providedHash_append h]
  have hche : expectedHex (q ++ [("hash", [expectedHex q secret])]) secret
      = expectedHex q secret := by
    unfold expectedHex
    rw [checkStr_append_hash]
  rw [hche, constantTimeCompare_eq_iff]

/-- Witness for C2. -/
theorem verify_roundTrip_witness :
    ("hash" ∉ ([("a", ["1"])] : QueryParams).map Prod.fst)
    ∧ VerifySignatureFromQuery
        ([("a", ["1"])] ++ [("hash", [expectedHex [("a", ["1"])] "sec"])]) "sec"
        = true :=
  ⟨by decide, verify_roundTrip [("a", ["1"])] "sec" (by decide)⟩

/-- C10: the hash comparison in VerifySignatureFromQuery is
ConstantTimeCompare (via hmac.Equal); its instrumented trace returns the
same Boolean, and the number of byte-pair operations performed depends
only on the lengths of the two inputs — with matching lengths it always
visits every byte pair, so it cannot short-circuit at the first
mismatching byte. -/
theorem constantTime_comparison (x y : List Nat) (q : QueryParams)
    (secret : String) :
    ((ctcTrace x y).1 = constantTimeCompare x y)
    ∧ ((ctcTrace x y).2 = if x.length = y.length then x.length else 0)
    ∧ (VerifySignatureFromQuery q secret
        = constantTimeCompare (strBytes (expectedHex q secret))
            (strBytes (providedHash q))) := by
  refine ⟨?_, ?_, rfl⟩
  · unfold ctcTrace constantTimeCompare
    split_ifs with hl
    · rw [ctcTrace_fold]
    · rfl
  · unfold ctcTrace
    split_ifs with hl
    · rw [ctcTrace_fold]
      simp [List.length_zip, hl]
    · rfl

/-- C5: a timestamp string that does not parse as a base-10 signed
64-bit integer makes ValidateTimestamp return false for every clock
value; ValidateTimestamp is a total Bool-valued function, so no
exception or panic can occur. -/
theorem validateTimestamp_parse_failure (s : String) (now : Int)
    (h : parseInt64 s = none) : ValidateTimestamp s now = false := by
  unfold ValidateTimestamp
  rw [h]

/-- Witness for C5: the empty string, a non-numeric string, and a value
overflowing 64 bits all fail to parse and are rejected. -/
theorem validateTimestamp_parse_failure_witness :
    (parseInt64 "" = none ∧ ValidateTimestamp "" 1000 = false)
    ∧ (parseInt64 "not-a-number" = none
      ∧ ValidateTimestamp "not-a-number" 1000 = false)
    ∧ (parseInt64 "9223372036854775808" = none
      ∧ ValidateTimestamp "9223372036854775808" 1000 = false) :=
  ⟨⟨by decide, validateTimestamp_parse_failure "" 1000 (by decide)⟩,
   ⟨by decide, validateTimestamp_parse_failure "not-a-number" 1000 (by decide)⟩,
   ⟨by decide, validateTimestamp_parse_failure "9223372036854775808" 1000 (by decide)⟩⟩

/-- C4: with SIGNATURE_MAX_AGE = 300, ValidateTimestamp accepts exactly
the strings that parse as a base-10 signed 64-bit integer `t` with
`-60 ≤ now - t ≤ 300`; in particular it accepts at age 300 and -60 and
rejects at age 301 and -61.  The clock `now` (time.Now().Unix()) is
assumed nonnegative and below 2^62, true of any physical clock. -/
theorem validateTimestamp_window (ts : String) (now : Int)
    (h1 : 0 ≤ now) (h2 : now ≤ 4611686018427387904) :
    SIGNATURE_MAX_AGE = 300
    ∧ (ValidateTimestamp ts now = true ↔
        ∃ t, parseInt64 ts = some t ∧ -60 ≤ now - t ∧ now - t ≤ 300) := by
  refine ⟨rfl, ?_⟩
  unfold ValidateTimestamp
  cases hp : parseInt64 ts with
  | none => simp
  | some t =>
    have hr := parseInt64_range hp
    show (if wrap64 (now - t) < -60 then false
      else if wrap64 (now - t) > SIGNATURE_MAX_AGE then false else true) = true ↔ _
    constructor
    · intro hv
      split_ifs at hv with ha hb
      refine ⟨t, rfl, ?_⟩
      unfold wrap64 at ha hb
      unfold SIGNATURE_MAX_AGE at hb
      omega
    · rintro ⟨t', ht', hlo, hhi⟩
      obtain rfl : t = t' := by
        simpa using ht'
      split_ifs with ha hb
      · exfalso
        unfold wrap64 at ha
        omega
      · exfalso
        unfold wrap64 SIGNATURE_MAX_AGE at hb
        omega
      · rfl

/-- Witness for C4: both boundary ages 300 and -60 are accepted via the
theorem; the hypotheses hold at the concrete clock values. -/
theorem validateTimestamp_window_witness :
    ((0 : Int) ≤ 1000000300 ∧ (1000000300 : Int) ≤ 4611686018427387904
      ∧ ValidateTimestamp "1000000000" 1000000300 = true)
    ∧ ((0 : Int) ≤ 999999940 ∧ (999999940 : Int) ≤ 4611686018427387904
      ∧ ValidateTimestamp "1000000000" 999999940 = true) :=
  ⟨⟨by decide, by decide,
    (validateTimestamp_window "1000000000" 1000000300 (by decide) (by decide)).2.mpr
      ⟨1000000000, by decide, by decide, by decide⟩⟩,
   ⟨by decide, by decide,
    (validateTimestamp_window "1000000000" 999999940 (by decide) (by decide)).2.mpr
      ⟨1000000000, by decide, by decide, by decide⟩⟩⟩

/-- C7: canonicalization is deterministic — two query maps whose
collected name→value pairs are equal as a set (whatever the collection
order) yield byte-identical canonical strings — and tamper-sensitive:
over a fixed set of retained names, changing the value of any single
name changes the canonical string. -/
theorem canonicalization_det_tamper :
    (∀ q1 q2 : QueryParams, (q1.map Prod.fst).Nodup → (q2.map Prod.fst).Nodup →
      (collectParams q1).Perm (collectParams q2) → checkStr q1 = checkStr q2)
    ∧ (∀ q1 q2 : QueryParams, ∀ k0 : String,
      (q1.map Prod.fst).Nodup → (q2.map Prod.fst).Nodup →
      ((collectParams q1).map Prod.fst).Perm ((collectParams q2).map Prod.fst) →
      k0 ∈ (collectParams q1).map Prod.fst →
      (∀ k ∈ (collectParams q1).map Prod.fst, k ≠ k0 →
        lookupParam (collectParams q1) k = lookupParam (collectParams q2) k) →
      lookupParam (collectParams q1) k0 ≠ lookupParam (collectParams q2) k0 →
      checkStr q1 ≠ checkStr q2) := by
  constructor
  · intro q1 q2 h1 h2 hperm
    have hnd1 := collectParams_keys_nodup h1
    have hnd2 := collectParams_keys_nodup h2
    have hkeys := sortedKeys_eq_of_perm (hperm.map Prod.fst)
    unfold checkStr
    rw [hkeys]
    apply congrArg
    apply List.map_congr_left
    intro k hk
    have hk2 : k ∈ (collectParams q2).map Prod.fst :=
      ((sortedKeys_perm _).mem_iff).mp hk
    obtain ⟨⟨k', v⟩, hm2, hfst⟩ := List.mem_map.mp hk2
    simp only at hfst
    subst hfst
    rw [lookupParam_eq hnd2 hm2, lookupParam_eq hnd1 (hperm.mem_iff.mpr hm2)]
  · intro q1 q2 k0 h1 h2 hkeysperm hk0 hothers hne hcontra
    apply hne
    have hnd1 := collectParams_keys_nodup h1
    have hkeys := sortedKeys_eq_of_perm hkeysperm
    have hk0s : k0 ∈ sortedKeys (collectParams q1) :=
      ((sortedKeys_perm _).mem_iff).mpr hk0
    obtain ⟨p, s, hps⟩ := List.append_of_mem hk0s
    have hksnd : (sortedKeys (collectParams q1)).Nodup :=
      (sortedKeys_perm _).symm.nodup hnd1
    rw [hps, List.nodup_append] at hksnd
    obtain ⟨-, hcs, hdisj⟩ := hksnd
    have hk0p : k0 ∉ p := fun hmem => hdisj hmem (List.mem_cons_self _ _)
    have hk0ss : k0 ∉ s := (List.nodup_cons.mp hcs).1
    unfold checkStr at hcontra
    rw [← hkeys, hps, List.map_append, List.map_append,
      List.map_cons, List.map_cons] at hcontra
    have hmapp : p.map (fun k => k ++ "=" ++ lookupParam (collectParams q1) k)
        = p.map (fun k => k ++ "=" ++ lookupParam (collectParams q2) k) := by
      apply List.map_congr_left
      intro k hkp
      have hkin : k ∈ sortedKeys (collectParams q1) := by
        rw [hps]
        exact List.mem_append_left _ hkp
      rw [hothers k (((sortedKeys_perm _).mem_iff).mp hkin)
        (fun he => hk0p (he ▸ hkp))]
    have hmaps : s.map (fun k => k ++ "=" ++ lookupParam (collectParams q1) k)
        = s.map (fun k => k ++ "=" ++ lookupParam (collectParams q2) k) := by
      apply List.map_congr_left
      intro k hkp
      have hkin : k ∈ sortedKeys (collectParams q1) := by
        rw [hps]
        exact List.mem_append_right _ (List.mem_cons_of_mem _ hkp)
      rw [hothers k (((sortedKeys_perm _).mem_iff).mp hkin)
        (fun he => hk0ss (he ▸ hkp))]
    rw [hmapp, hmaps] at hcontra
    exact str_append_cancel_left (joinLines_inj_at hcontra)

/-- Witness for C7: reordering the input leaves the canonical string
unchanged; changing the single value of name "a" changes it. -/
theorem canonicalization_det_tamper_witness :
    checkStr [("a", ["1"]), ("b", ["2"])] = checkStr [("b", ["2"]), ("a", ["1"])]
    ∧ checkStr [("a", ["1"]), ("b", ["2"])] ≠ checkStr [("a", ["9"]), ("b", ["2"])] := by
  constructor
  · exact canonicalization_det_tamper.1 [("a", ["1"]), ("b", ["2"])]
      [("b", ["2"]), ("a", ["1"])] (by decide) (by decide) (by decide)
  · exact canonicalization_det_tamper.2 [("a", ["1"]), ("b", ["2"])]
      [("a", ["9"]), ("b", ["2"])] "a" (by decide) (by decide) (by decide)
      (by decide) (by decide) (by decide)

set_option maxRecDepth 100000 in
/-- C8: concrete interoperability vector — for
{user_id: "42", ts: "1000000000", app_id: "7"} the canonical string is
exactly "app_id=7\nts=1000000000\nuser_id=42" (names in byte order),
and the expected signature for secret "testsecret" is the lowercase hex
HMAC-SHA-256 over that string keyed with SHA-256("testsecret"), whose
value is pinned below (cross-checked against an independent
implementation). -/
theorem interop_vector :
    checkStr [("user_id", ["42"]), ("ts", ["1000000000"]), ("app_id", ["7"])]
      = "app_id=7\nts=1000000000\nuser_id=42"
    ∧ expectedHex [("user_id", ["42"]), ("ts", ["1000000000"]), ("app_id", ["7"])]
        "testsecret"
      = hexEncode (hmacSha256 (sha256 (strBytes "testsecret"))
          (strBytes "app_id=7\nts=1000000000\nuser_id=42"))
    ∧ expectedHex [("user_id", ["42"]), ("ts", ["1000000000"]), ("app_id", ["7"])]
        "testsecret"
      = "86f4fd6b771fd2a3cbc8009cf971ce1b968d6196499082c079b6bbd0cdd974ac" := by
  refine ⟨by decide, ?_, by decide⟩
  unfold expectedHex
  rw [show checkStr [("user_id", ["42"]), ("ts", ["1000000000"]), ("app_id", ["7"])]
      = "app_id=7\nts=1000000000\nuser_id=42" by decide]
